import Mathlib

/- Verification of the hexSnippets merge-and-refresh engine (src/src/extension.ts).
   Strings manipulated character by character are modelled as lists of
   characters; editor, filesystem and git collaborators are modelled as
   explicit inputs. -/

namespace HexSnippets

/-- A JavaScript string viewed as its character sequence. -/
abbrev Str := List Char

/-- The global-language sentinel, the one-character string star. -/
def star : Str := ['*']

/-- JS String.trim: drop leading and trailing whitespace. -/
def jsTrim (s : Str) : Str :=
  ((s.dropWhile Char.isWhitespace).reverse.dropWhile Char.isWhitespace).reverse

/-- JS String.toLowerCase, character-wise. -/
def toLowerStr (s : Str) : Str := s.map Char.toLower

/-- A character matched by the scope-splitting regex class (comma or whitespace). -/
def isScopeSep (c : Char) : Bool := c = ',' || c.isWhitespace

/-- JS String.split on a one-or-more character-class regex: split at each
maximal nonempty run of separator characters.  The flag records whether we
are currently inside a separator run. -/
def splitRunsGo (f : Char → Bool) : Bool → Str → List Str
  | _, [] => [[]]
  | inRun, c :: rest =>
    if f c then
      if inRun then splitRunsGo f true rest else [] :: splitRunsGo f true rest
    else
      match splitRunsGo f false rest with
      | [] => [[c]]
      | p :: ps => (c :: p) :: ps

/-- The scope pipeline of normalizeSnippet: split on runs of commas and
whitespace, trim each token, keep the nonempty ones. -/
def splitScope (sc : Str) : List Str :=
  ((splitRunsGo isScopeSep false sc).map jsTrim).filter (fun t => !t.isEmpty)

/-- JS String.split on a CR-optional-LF regex: a line break is either a
lone line feed or a carriage return immediately followed by a line feed. -/
def splitCRLF : Str → List Str
  | [] => [[]]
  | '\n' :: rest => [] :: splitCRLF rest
  | '\r' :: '\n' :: rest => [] :: splitCRLF rest
  | c :: rest =>
    match splitCRLF rest with
    | [] => [[c]]
    | p :: ps => (c :: p) :: ps

/-- Split on line feeds only (the first half of the specification reading
of the body split: split on the newline, then strip the optional carriage
return that immediately preceded it). -/
def splitOnLF : Str → List Str
  | [] => [[]]
  | c :: rest =>
    if c = '\n' then [] :: splitOnLF rest
    else
      match splitOnLF rest with
      | [] => [[c]]
      | p :: ps => (c :: p) :: ps

/-- Remove a single trailing carriage return, when present. -/
def stripTrailingCR : Str → Str
  | [] => []
  | ['\r'] => []
  | c :: rest => c :: stripTrailingCR rest

/-- Apply stripTrailingCR to every element except the last one. -/
def stripNonLast : List Str → List Str
  | [] => []
  | [l] => [l]
  | l :: rest => stripTrailingCR l :: stripNonLast rest

/-- Specification-side reading of the body split: the string is split on
newline boundaries, where a boundary is a line feed or a carriage return
plus line feed; equivalently, split on line feeds and strip the carriage
return left at the end of every piece but the last. -/
def splitLinesSpec (s : Str) : List Str := stripNonLast (splitOnLF s)

/-- JS Array.from applied to a Set: deduplicate keeping first occurrences, in order. -/
def jsDedupGo (seen : List Char) : List Char → List Char
  | [] => []
  | c :: rest =>
    if c ∈ seen then jsDedupGo seen rest else c :: jsDedupGo (c :: seen) rest

/-- Distinct characters of a list, first occurrence order. -/
def jsDedup (l : List Char) : List Char := jsDedupGo [] l

example : splitCRLF ('a' :: '\r' :: '\n' :: 'b' :: []) = [['a'], ['b']] := by decide
example : splitCRLF ('a' :: '\n' :: []) = [['a'], []] := by decide
example : splitCRLF ('a' :: '\r' :: 'b' :: []) = [['a', '\r', 'b']] := by decide
example : splitLinesSpec ('a' :: '\r' :: '\n' :: 'b' :: []) = [['a'], ['b']] := by decide
example : splitScope [','] = [] := by decide
example : splitScope (' ' :: 'j' :: 's' :: ',' :: 't' :: 's' :: []) = [['j', 's'], ['t', 's']] := by decide
example : jsDedup ['a', 'b', 'a', 'c'] = ['a', 'b', 'c'] := by decide

/-- A JSON value that is either a single string or an array of strings. -/
inductive StrOrArr where
  | str (s : Str)
  | arr (l : List Str)
deriving DecidableEq

/-- One raw snippet entry as found in a snippet file.  The field pfx embeds
the source field named after the leading part of a snippet, which is a
string or an array of strings, like body. -/
structure RawSnippet where
  pfx : StrOrArr
  body : StrOrArr
  description : Option String
  scope : Option Str
deriving DecidableEq

/-- The canonical in-memory snippet produced by normalizeSnippet. -/
structure TeamSnippet where
  name : String
  prefixes : List Str
  bodyLines : List Str
  description : Option String
  languages : List Str
deriving DecidableEq

/-- normalizeSnippet from the source: coerce pfx and body to arrays,
splitting a string body on CR-optional-LF boundaries; languages default to
the global sentinel and otherwise come from splitting a truthy, non-blank
scope on runs of commas and whitespace, trimming, and dropping empties. -/
def normalizeSnippet (name : String) (raw : RawSnippet) : TeamSnippet :=
  { name := name
  , prefixes := match raw.pfx with | StrOrArr.str s => [s] | StrOrArr.arr l => l
  , bodyLines := match raw.body with | StrOrArr.str s => splitCRLF s | StrOrArr.arr l => l
  , description := raw.description
  , languages :=
      match raw.scope with
      | none => [star]
      | some sc => if jsTrim sc = [] then [star] else splitScope sc }

/-- The aggregated snippet table: an insertion-ordered map from language
key to its bucket, as a JS Map is (unique keys, insertion order kept). -/
abbrev SnipMap := List (Str × List TeamSnippet)

/-- JS Map.get as an association-list lookup. -/
def mapGet : SnipMap → Str → Option (List TeamSnippet)
  | [], _ => none
  | kv :: rest, k => if kv.1 = k then some kv.2 else mapGet rest k

/-- Get-or-create the bucket for a key and push one snippet at its end. -/
def mapPush : SnipMap → Str → TeamSnippet → SnipMap
  | [], k, s => [(k, [s])]
  | kv :: rest, k, s =>
    if kv.1 = k then (kv.1, kv.2 ++ [s]) :: rest else kv :: mapPush rest k s

/-- Get-or-create the bucket for a key and push a sequence of snippets at its end. -/
def mapAppendMany : SnipMap → Str → List TeamSnippet → SnipMap
  | [], k, v => [(k, v)]
  | kv :: rest, k, v =>
    if kv.1 = k then (kv.1, kv.2 ++ v) :: rest else kv :: mapAppendMany rest k v

/-- The aggregate-merge loop of syncAllRepos: push every bucket of the
second map at the end of the matching bucket of the first. -/
def mergeMaps (agg : SnipMap) (repoMap : SnipMap) : SnipMap :=
  repoMap.foldl (fun m kv => mapAppendMany m kv.1 kv.2) agg

/-- countTotalSnippets from the source: the running sum of bucket lengths. -/
def countTotalSnippets (m : SnipMap) : Nat :=
  m.foldl (fun acc kv => acc + kv.2.length) 0

/-- The sum of the bucket lengths of a table, stated directly. -/
def sumBucketLens (m : SnipMap) : Nat := (m.map (fun kv => kv.2.length)).sum

/-- Push one snippet under every listed key, in order. -/
def pushAll (snip : TeamSnippet) (keys : List Str) (m : SnipMap) : SnipMap :=
  keys.foldl (fun acc k => mapPush acc k snip) m

/-- The per-entry insertion step of collectSnippetsFromFolder: the snippet
is appended to the bucket of the lower-cased form of each of its languages. -/
def addSnippetToMap (m : SnipMap) (snip : TeamSnippet) : SnipMap :=
  pushAll snip (snip.languages.map toLowerStr) m

/-- What one snippet file contains, at the granularity the engine observes:
blank text (skipped silently), text that fails to parse as the required
JSON shape (skipped with a warning), or a parsed list of named raw entries. -/
inductive FileContent where
  | blank
  | malformed (msg : String)
  | parsed (entries : List (String × RawSnippet))
deriving DecidableEq

/-- One file found when walking a snippets folder: its path and content. -/
structure SFile where
  name : Str
  content : FileContent
deriving DecidableEq

/-- The eligibility filter of collectSnippetsFromFolder. -/
def eligibleFile (includeJson : Bool) (f : SFile) : Bool :=
  List.isSuffixOf ('.' :: 'c' :: 'o' :: 'd' :: 'e' :: '-' :: 's' :: 'n' :: 'i' :: 'p' :: 'p' :: 'e' :: 't' :: 's' :: []) f.name
    || (includeJson && List.isSuffixOf ('.' :: 'j' :: 's' :: 'o' :: 'n' :: []) f.name)

/-- The body of the per-file loop of collectSnippetsFromFolder. -/
def loadFileInto (m : SnipMap) (f : SFile) : SnipMap :=
  match f.content with
  | FileContent.blank => m
  | FileContent.malformed _ => m
  | FileContent.parsed entries =>
    entries.foldl (fun acc e => addSnippetToMap acc (normalizeSnippet e.1 e.2)) m

/-- collectSnippetsFromFolder from the source: filter the walked files for
eligibility, then fold every parsed entry of every file into the map. -/
def collectSnippetsFromFolder (files : List SFile) (includeJson : Bool) : SnipMap :=
  (files.filter (eligibleFile includeJson)).foldl loadFileInto []

/-- The warning calls surfaced by collectSnippetsFromFolder: one per
eligible file whose content fails to parse. -/
def collectParseWarnings (files : List SFile) (includeJson : Bool) : List Str :=
  (files.filter (eligibleFile includeJson)).filterMap (fun f =>
    match f.content with
    | FileContent.malformed _ => some f.name
    | _ => none)

/-- One validated source descriptor, as produced by getRepoConfigs. -/
structure RepoConfig where
  id : String
  name : String
  localRepoPath : String
  branch : String
  snippetsPath : String
  includeJsonFiles : Bool
  enableGitPull : Bool
deriving DecidableEq

/-- One raw entry of the repositories setting.  A field of the wrong type
or absent is modelled as none; for the boolean flags this also covers the
non-boolean values the source rejects with a typeof test. -/
structure RawRepoEntry where
  localRepoPath : Option String
  name : Option String
  branch : Option String
  snippetsPath : Option String
  includeJsonFiles : Option Bool
  enableGitPull : Option Bool
deriving DecidableEq

/-- The legacy flat single-repo settings. -/
structure FlatCfg where
  localRepoPath : Option String
  branch : Option String
  snippetsPath : Option String
  includeJsonFiles : Option Bool
  enableGitPull : Option Bool
deriving DecidableEq

/-- JS short-circuit-or defaulting of a string setting: absent or empty
falls back to the default, any other string is kept as is. -/
def jsOr (o : Option String) (d : String) : String :=
  match o with
  | none => d
  | some s => if s = "" then d else s

/-- The per-entry body of the forEach loop of getRepoConfigs, at its
zero-based position in the configured list. -/
def entryFun (ia : Nat × RawRepoEntry) : Option RepoConfig :=
  let lrp := (ia.2.localRepoPath.getD "").trim
  if lrp = "" then none
  else
    some
      { id := "repo-" ++ toString ia.1
      , name :=
          (let n := (ia.2.name.getD "").trim
           if n = "" then "Repo " ++ toString (ia.1 + 1) ++ " (" ++ lrp ++ ")" else n)
      , localRepoPath := lrp
      , branch := jsOr ia.2.branch "main"
      , snippetsPath := jsOr ia.2.snippetsPath "snippets"
      , includeJsonFiles := ia.2.includeJsonFiles.getD true
      , enableGitPull := ia.2.enableGitPull.getD true }

/-- getRepoConfigs from the source: an explicit non-empty repositories list
is validated entry by entry; otherwise one legacy descriptor is built from
the flat settings when they carry a non-blank path. -/
def getRepoConfigs (repos : List RawRepoEntry) (flat : FlatCfg) : List RepoConfig :=
  if repos.length > 0 then
    (repos.enum).filterMap entryFun
  else
    let fallbackPath := (flat.localRepoPath.getD "").trim
    if fallbackPath = "" then []
    else
      [ { id := "fallback"
        , name := "Default Repo"
        , localRepoPath := fallbackPath
        , branch := jsOr flat.branch "main"
        , snippetsPath := jsOr flat.snippetsPath "snippets"
        , includeJsonFiles := flat.includeJsonFiles.getD true
        , enableGitPull := flat.enableGitPull.getD true } ]

/-- Specification-side resolveSources, explicit-list arm, written as a
direct recursion carrying the entry index: an entry whose path is absent or
blank is dropped; a kept entry gets its display name defaulted to the
indexed template, its branch to main, its snippets path to snippets, and
its boolean flags to true when absent or of the wrong type. -/
def resolveSourcesSpecGo : Nat → List RawRepoEntry → List RepoConfig
  | _, [] => []
  | i, r :: rest =>
    let p := (r.localRepoPath.getD "").trim
    if p = "" then resolveSourcesSpecGo (i + 1) rest
    else
      { id := "repo-" ++ toString i
      , name :=
          (let n := (r.name.getD "").trim
           if n = "" then "Repo " ++ toString (i + 1) ++ " (" ++ p ++ ")" else n)
      , localRepoPath := p
      , branch := jsOr r.branch "main"
      , snippetsPath := jsOr r.snippetsPath "snippets"
      , includeJsonFiles := r.includeJsonFiles.getD true
      , enableGitPull := r.enableGitPull.getD true } :: resolveSourcesSpecGo (i + 1) rest

/-- Specification-side resolveSources: the explicit list when non-empty,
else a single legacy descriptor when the flat path is present, else the
empty sequence, with no error raised in any arm. -/
def resolveSourcesSpec (repos : List RawRepoEntry) (flat : FlatCfg) : List RepoConfig :=
  if repos = [] then
    let fallbackPath := (flat.localRepoPath.getD "").trim
    if fallbackPath = "" then []
    else
      [ { id := "fallback"
        , name := "Default Repo"
        , localRepoPath := fallbackPath
        , branch := jsOr flat.branch "main"
        , snippetsPath := jsOr flat.snippetsPath "snippets"
        , includeJsonFiles := flat.includeJsonFiles.getD true
        , enableGitPull := flat.enableGitPull.getD true } ]
  else resolveSourcesSpecGo 0 repos

/-- The filesystem and git facts one repository meets during a cycle: the
resolved root path, whether it and its git marker directory exist, what a
pull would report, whether the snippets folder exists, and the files a walk
of that folder enumerates, in walk order. -/
structure RepoEnv where
  resolvedPath : String
  pathExists : Bool
  gitDirExists : Bool
  pullError : Option String
  snippetDirExists : Bool
  files : List SFile
deriving DecidableEq

/-- The per-source status record of a cycle.  lastSyncSet models whether
the lastSync timestamp was written. -/
structure RepoStatus where
  id : String
  name : String
  lastSyncSet : Bool
  lastError : Option String
  snippetCount : Nat
deriving DecidableEq

/-- The per-repository body of the syncAllRepos loop.  Returns the final
status recorded for the repository, the snippet map it contributes to the
aggregate, and whether a pull was invoked. -/
def syncOne (repo : RepoConfig) (env : RepoEnv) (allowGitPull : Bool) :
    RepoStatus × SnipMap × Bool :=
  if !(env.pathExists && env.gitDirExists) then
    ( { id := repo.id, name := repo.name, lastSyncSet := false
      , lastError := some ("Not a git repo: " ++ env.resolvedPath)
      , snippetCount := 0 }
    , [], false)
  else
    let doPull := allowGitPull && repo.enableGitPull
    let pullErr : Option String :=
      if doPull then env.pullError.map (fun e => "git pull failed: " ++ e) else none
    if !env.snippetDirExists then
      ( { id := repo.id, name := repo.name, lastSyncSet := false
        , lastError := some (pullErr.getD
            ("Snippets folder not found: " ++ env.resolvedPath ++ "/" ++ repo.snippetsPath))
        , snippetCount := 0 }
      , [], doPull)
    else
      let repoMap := collectSnippetsFromFolder env.files repo.includeJsonFiles
      ( { id := repo.id, name := repo.name, lastSyncSet := pullErr.isNone
        , lastError := pullErr, snippetCount := countTotalSnippets repoMap }
      , repoMap, doPull)

/-- The source loop of syncAllRepos, carrying the aggregate built so far;
returns the published aggregate and the statuses in source order. -/
def syncGo (allowGitPull : Bool) (acc : SnipMap) :
    List (RepoConfig × RepoEnv) → SnipMap × List RepoStatus
  | [] => (acc, [])
  | p :: rest =>
    let r := syncOne p.1 p.2 allowGitPull
    let tail := syncGo allowGitPull (mergeMaps acc r.2.1) rest
    (tail.1, r.1 :: tail.2)

/-- syncAllRepos from the source, for a non-empty resolved configuration:
process the sources sequentially, merge each contribution into the
aggregate, and publish the aggregate with the per-source statuses. -/
def syncAllRepos (repos : List (RepoConfig × RepoEnv)) (allowGitPull : Bool) :
    SnipMap × List RepoStatus :=
  syncGo allowGitPull [] repos

/-- What a registered completion provider is scoped to. -/
inductive Selector where
  | lang (l : Str)
  | anyFile
deriving DecidableEq

/-- One registered completion provider: its document selector, the ordered
snippet sequence it offers, and its trigger characters. -/
structure Provider where
  selector : Selector
  snippets : List TeamSnippet
  triggerChars : List Char
deriving DecidableEq

/-- The last characters of all the nonempty prefixes of a snippet sequence. -/
def lastCharsOf (snips : List TeamSnippet) : List Char :=
  (snips.map (fun s => s.prefixes)).flatten.filterMap (fun p => p.getLast?)

/-- Build a provider over a snippet sequence, deriving the trigger
characters as the source does: distinct last characters of the prefixes. -/
def mkProvider (sel : Selector) (snips : List TeamSnippet) : Provider :=
  { selector := sel, snippets := snips, triggerChars := jsDedup (lastCharsOf snips) }

/-- registerCompletionProviders from the source: one provider per
non-global language key offering the global bucket followed by that
language's bucket, plus a catch-all provider for the global bucket alone
when it is nonempty and no language-scoped key exists. -/
def registerCompletionProviders (m : SnipMap) : List Provider :=
  let globalSnips := (mapGet m star).getD []
  (m.filterMap (fun kv =>
      if kv.1 = star then none
      else some (mkProvider (Selector.lang kv.1) (globalSnips ++ kv.2))))
    ++ (if globalSnips.length > 0
           && !(m.map Prod.fst).isEmpty
           && (m.map Prod.fst).all (fun k => k = star)
        then [mkProvider Selector.anyFile globalSnips]
        else [])

theorem mapGet_mapPush_self (m : SnipMap) (k : Str) (s : TeamSnippet) :
    mapGet (mapPush m k s) k = some (((mapGet m k).getD []) ++ [s]) := by
  induction m with
  | nil => simp [mapGet, mapPush]
  | cons kv rest ih =>
    by_cases h : kv.1 = k
    · simp [mapGet, mapPush, h]
    · simp [mapGet, mapPush, h, ih]

theorem mapGet_mapPush_ne (m : SnipMap) (k k' : Str) (s : TeamSnippet)
    (h : k' ≠ k) : mapGet (mapPush m k s) k' = mapGet m k' := by
  have h2 : ¬ k = k' := fun hh => h hh.symm
  induction m with
  | nil => simp [mapGet, mapPush, h2]
  | cons kv rest ih =>
    by_cases hk : kv.1 = k
    · subst hk
      simp [mapGet, mapPush, h2]
    · by_cases hk' : kv.1 = k'
      · simp [mapGet, mapPush, hk, hk', h]
      · simp [mapGet, mapPush, hk, hk', ih]

theorem mapGet_pushAll_not_mem (snip : TeamSnippet) (keys : List Str) (m : SnipMap)
    (k : Str) (h : k ∉ keys) : mapGet (pushAll snip keys m) k = mapGet m k := by
  induction keys generalizing m with
  | nil => rfl
  | cons k0 rest ih =>
    have hne : k ≠ k0 := fun hh => h (hh ▸ List.mem_cons_self k0 rest)
    have hrest : k ∉ rest := fun hh => h (List.mem_cons_of_mem _ hh)
    simp only [pushAll, List.foldl_cons]
    rw [show (List.foldl (fun acc k => mapPush acc k snip) (mapPush m k0 snip) rest)
          = pushAll snip rest (mapPush m k0 snip) from rfl]
    rw [ih _ hrest, mapGet_mapPush_ne _ _ _ _ hne]

theorem mapGet_pushAll_preserve (snip : TeamSnippet) (keys : List Str) (m : SnipMap)
    (k : Str) (w : List TeamSnippet) (h : mapGet m k = some w) :
    ∃ w', mapGet (pushAll snip keys m) k = some (w ++ w') := by
  induction keys generalizing m w with
  | nil => exact ⟨[], by simpa [pushAll] using h⟩
  | cons k0 rest ih =>
    simp only [pushAll, List.foldl_cons]
    rw [show (List.foldl (fun acc k => mapPush acc k snip) (mapPush m k0 snip) rest)
          = pushAll snip rest (mapPush m k0 snip) from rfl]
    by_cases hk : k = k0
    · subst hk
      have hg : mapGet (mapPush m k snip) k = some (w ++ [snip]) := by
        rw [mapGet_mapPush_self, h]; rfl
      obtain ⟨w', hw'⟩ := ih _ _ hg
      exact ⟨[snip] ++ w', by simpa [List.append_assoc] using hw'⟩
    · have hg : mapGet (mapPush m k0 snip) k = some w := by
        rw [mapGet_mapPush_ne _ _ _ _ hk, h]
      exact ih _ _ hg

theorem mapGet_pushAll_mem (snip : TeamSnippet) (keys : List Str) (m : SnipMap)
    (k : Str) (h : k ∈ keys) :
    ∃ w, mapGet (pushAll snip keys m) k = some w ∧ snip ∈ w := by
  induction keys generalizing m with
  | nil => cases h
  | cons k0 rest ih =>
    simp only [pushAll, List.foldl_cons]
    rw [show (List.foldl (fun acc k => mapPush acc k snip) (mapPush m k0 snip) rest)
          = pushAll snip rest (mapPush m k0 snip) from rfl]
    by_cases hk : k = k0
    · subst hk
      have hg : mapGet (mapPush m k snip) k
          = some (((mapGet m k).getD []) ++ [snip]) := mapGet_mapPush_self m k snip
      obtain ⟨w', hw'⟩ := mapGet_pushAll_preserve snip rest _ k _ hg
      refine ⟨_, hw', ?_⟩
      simp
    · rcases List.mem_cons.mp h with h0 | hrest
      · exact absurd h0 hk
      · exact ih _ hrest


theorem sumBucketLens_mapPush (m : SnipMap) (k : Str) (s : TeamSnippet) :
    sumBucketLens (mapPush m k s) = sumBucketLens m + 1 := by
  induction m with
  | nil => simp [sumBucketLens, mapPush]
  | cons kv rest ih =>
    by_cases h : kv.1 = k
    · simp [sumBucketLens, mapPush, h]
      omega
    · simp only [sumBucketLens, mapPush, h, if_false, List.map_cons, List.sum_cons]
      have := ih
      simp only [sumBucketLens] at this
      omega

theorem sumBucketLens_mapAppendMany (m : SnipMap) (k : Str) (v : List TeamSnippet) :
    sumBucketLens (mapAppendMany m k v) = sumBucketLens m + v.length := by
  induction m with
  | nil => simp [sumBucketLens, mapAppendMany]
  | cons kv rest ih =>
    by_cases h : kv.1 = k
    · simp [sumBucketLens, mapAppendMany, h]
      omega
    · simp only [sumBucketLens, mapAppendMany, h, if_false, List.map_cons, List.sum_cons]
      have := ih
      simp only [sumBucketLens] at this
      omega

theorem sumBucketLens_pushAll (snip : TeamSnippet) (keys : List Str) (m : SnipMap) :
    sumBucketLens (pushAll snip keys m) = sumBucketLens m + keys.length := by
  induction keys generalizing m with
  | nil => simp [pushAll]
  | cons k0 rest ih =>
    simp only [pushAll, List.foldl_cons]
    rw [show (List.foldl (fun acc k => mapPush acc k snip) (mapPush m k0 snip) rest)
          = pushAll snip rest (mapPush m k0 snip) from rfl]
    rw [ih, sumBucketLens_mapPush]
    simp [List.length_cons]
    omega

theorem sumBucketLens_mergeMaps (a b : SnipMap) :
    sumBucketLens (mergeMaps a b) = sumBucketLens a + sumBucketLens b := by
  induction b generalizing a with
  | nil => simp [mergeMaps, sumBucketLens]
  | cons kv rest ih =>
    simp only [mergeMaps, List.foldl_cons]
    rw [show (List.foldl (fun m kv => mapAppendMany m kv.1 kv.2) (mapAppendMany a kv.1 kv.2) rest)
          = mergeMaps (mapAppendMany a kv.1 kv.2) rest from rfl]
    rw [ih, sumBucketLens_mapAppendMany]
    simp only [sumBucketLens, List.map_cons, List.sum_cons]
    omega

theorem countTotal_eq_sumBucketLens (m : SnipMap) :
    countTotalSnippets m = sumBucketLens m := by
  have aux : ∀ (l : SnipMap) (a : Nat),
      l.foldl (fun acc kv => acc + kv.2.length) a = a + (l.map (fun kv => kv.2.length)).sum := by
    intro l
    induction l with
    | nil => intro a; simp
    | cons kv rest ih =>
      intro a
      simp only [List.foldl_cons, List.map_cons, List.sum_cons, ih]
      omega
  simpa [countTotalSnippets, sumBucketLens] using aux m 0

theorem countTotal_mergeMaps (a b : SnipMap) :
    countTotalSnippets (mergeMaps a b) = countTotalSnippets a + countTotalSnippets b := by
  simp [countTotal_eq_sumBucketLens, sumBucketLens_mergeMaps]

theorem splitOnLF_ne_nil (s : Str) : splitOnLF s ≠ [] := by
  cases s with
  | nil => simp [splitOnLF]
  | cons c rest =>
    by_cases h : c = '\n'
    · simp [splitOnLF, h]
    · cases hgo : splitOnLF rest <;> simp [splitOnLF, h, hgo]

theorem splitCRLF_ne_nil (s : Str) : splitCRLF s ≠ [] := by
  induction s using splitCRLF.induct with
  | case1 => simp [splitCRLF]
  | case2 rest ih => simp [splitCRLF]
  | case3 rest ih => simp [splitCRLF]
  | case4 c rest h1 h2 hnil ih => rw [splitCRLF.eq_4 c rest h1 h2, hnil]; simp
  | case5 c rest h1 h2 p ps hps ih => rw [splitCRLF.eq_4 c rest h1 h2, hps]; simp

theorem stripTrailingCR_cons_of_ne (c : Char) (p : Str) (h : c ≠ '\r') :
    stripTrailingCR (c :: p) = c :: stripTrailingCR p := by
  cases p with
  | nil => simp [stripTrailingCR, h]
  | cons x xs => simp [stripTrailingCR]

theorem stripTrailingCR_cons_of_ne_nil (c : Char) (p : Str) (h : p ≠ []) :
    stripTrailingCR (c :: p) = c :: stripTrailingCR p := by
  cases p with
  | nil => exact absurd rfl h
  | cons x xs => simp [stripTrailingCR]

theorem splitOnLF_cons_of_ne (c : Char) (rest : Str) (q : Str) (qs : List Str)
    (h : ¬ c = '\n') (hgo : splitOnLF rest = q :: qs) :
    splitOnLF (c :: rest) = (c :: q) :: qs := by
  rw [show splitOnLF (c :: rest)
        = (if c = '\n' then [] :: splitOnLF rest
           else match splitOnLF rest with
                | [] => [[c]]
                | p :: ps => (c :: p) :: ps) from rfl
     , if_neg h, hgo]

theorem splitCRLF_eq_spec (s : Str) : splitCRLF s = splitLinesSpec s := by
  induction s using splitCRLF.induct with
  | case1 => rfl
  | case2 rest ih =>
    rw [splitCRLF.eq_2, ih]
    unfold splitLinesSpec
    rw [show splitOnLF ('\n' :: rest) = [] :: splitOnLF rest from by simp [splitOnLF]]
    cases hgo : splitOnLF rest with
    | nil => exact absurd hgo (splitOnLF_ne_nil rest)
    | cons p ps => rfl
  | case3 rest ih =>
    rw [splitCRLF.eq_3, ih]
    unfold splitLinesSpec
    obtain ⟨q, qs, hq⟩ : ∃ q qs, splitOnLF rest = q :: qs := by
      cases hm : splitOnLF rest with
      | nil => exact absurd hm (splitOnLF_ne_nil _)
      | cons a b => exact ⟨a, b, rfl⟩
    have hlf : splitOnLF ('\n' :: rest) = [] :: splitOnLF rest := by simp [splitOnLF]
    have hcr : splitOnLF ('\r' :: '\n' :: rest) = ('\r' :: []) :: splitOnLF rest :=
      splitOnLF_cons_of_ne _ _ _ _ (by decide) hlf
    rw [hcr, hq]
    rfl
  | case4 c rest h1 h2 hnil ih => exact absurd hnil (splitCRLF_ne_nil rest)
  | case5 c rest h1 h2 p ps hps ih =>
    rw [splitCRLF.eq_4 c rest h1 h2, hps]
    have hcne : ¬ c = '\n' := fun h => h1 h
    unfold splitLinesSpec
    cases rest with
    | nil =>
      rw [splitCRLF.eq_1] at hps
      cases hps
      have hout : splitOnLF (c :: []) = [c :: []] :=
        splitOnLF_cons_of_ne _ _ _ _ hcne rfl
      rw [hout]
      rfl
    | cons r0 rest2 =>
      by_cases hr0 : r0 = '\n'
      · subst hr0
        have hccr : ¬ c = '\r' := fun hcc => h2 rest2 hcc rfl
        rw [splitCRLF.eq_2] at hps
        obtain ⟨m0, ms, hm⟩ : ∃ m0 ms, splitOnLF rest2 = m0 :: ms := by
          cases hmm : splitOnLF rest2 with
          | nil => exact absurd hmm (splitOnLF_ne_nil _)
          | cons a b => exact ⟨a, b, rfl⟩
        have hlf : splitOnLF ('\n' :: rest2) = [] :: splitOnLF rest2 := by simp [splitOnLF]
        have hcons : splitOnLF (c :: '\n' :: rest2) = (c :: []) :: splitOnLF rest2 :=
          splitOnLF_cons_of_ne _ _ _ _ hcne hlf
        rw [hcons, hm]
        have ih2 : [] :: splitCRLF rest2 = [] :: stripNonLast (m0 :: ms) := by
          rw [← splitCRLF.eq_2 rest2, ih]
          unfold splitLinesSpec
          rw [hlf, hm]
          rfl
        injection ih2 with hh ht
        injection hps with hp hpss
        subst hp
        rw [← hpss, ht]
        have hsc : stripTrailingCR (c :: []) = c :: [] := by simp [stripTrailingCR, hccr]
        rw [show stripNonLast ((c :: []) :: m0 :: ms)
              = stripTrailingCR (c :: []) :: stripNonLast (m0 :: ms) from rfl, hsc]
      · obtain ⟨q, qs, hq⟩ : ∃ q qs, splitOnLF rest2 = q :: qs := by
          cases hm : splitOnLF rest2 with
          | nil => exact absurd hm (splitOnLF_ne_nil _)
          | cons a b => exact ⟨a, b, rfl⟩
        have hrest : splitOnLF (r0 :: rest2) = (r0 :: q) :: qs :=
          splitOnLF_cons_of_ne _ _ _ _ hr0 hq
        have hcons : splitOnLF (c :: r0 :: rest2) = (c :: r0 :: q) :: qs :=
          splitOnLF_cons_of_ne _ _ _ _ hcne hrest
        rw [hcons]
        have ihx : p :: ps = stripNonLast ((r0 :: q) :: qs) := by
          rw [← hps, ih]
          unfold splitLinesSpec
          rw [hrest]
        cases qs with
        | nil =>
          rw [show stripNonLast [r0 :: q] = [r0 :: q] from rfl] at ihx
          injection ihx with hpp hpps
          subst hpp
          subst hpps
          rfl
        | cons w ws =>
          rw [show stripNonLast ((r0 :: q) :: w :: ws)
                = stripTrailingCR (r0 :: q) :: stripNonLast (w :: ws) from rfl] at ihx
          injection ihx with hpp hpps
          subst hpp
          subst hpps
          rw [show stripNonLast ((c :: r0 :: q) :: w :: ws)
                = stripTrailingCR (c :: r0 :: q) :: stripNonLast (w :: ws) from rfl]
          rw [stripTrailingCR_cons_of_ne_nil c (r0 :: q) (by simp)]

theorem splitRunsGo_ne_nil (f : Char → Bool) (b : Bool) (s : Str) :
    splitRunsGo f b s ≠ [] := by
  induction s generalizing b with
  | nil => simp [splitRunsGo]
  | cons c rest ih =>
    by_cases hc : f c = true
    · cases b with
      | false => simp [splitRunsGo, hc]
      | true =>
        simp only [splitRunsGo, hc, if_true]
        exact ih true
    · have hc2 : f c = false := by simpa using hc
      cases hgo : splitRunsGo f false rest <;> simp [splitRunsGo, hc2, hgo]

theorem splitRunsGo_token_not_sep (f : Char → Bool) (b : Bool) (s : Str) :
    ∀ t ∈ splitRunsGo f b s, ∀ c ∈ t, f c = false := by
  induction s generalizing b with
  | nil =>
    intro t ht c hc
    simp [splitRunsGo] at ht
    subst ht
    cases hc
  | cons c0 rest ih =>
    intro t ht c hc
    by_cases h0 : f c0 = true
    · cases b with
      | true =>
        simp only [splitRunsGo, h0, if_true] at ht
        exact ih true t ht c hc
      | false =>
        simp only [splitRunsGo, h0, if_true] at ht
        rcases List.mem_cons.mp ht with h | h
        · subst h; cases hc
        · exact ih true t h c hc
    · have h0f : f c0 = false := by simpa using h0
      simp only [splitRunsGo, h0f] at ht
      cases hgo : splitRunsGo f false rest with
      | nil => exact absurd hgo (splitRunsGo_ne_nil f false rest)
      | cons p ps =>
        rw [hgo] at ht
        simp only [Bool.false_eq_true, if_false] at ht
        rcases List.mem_cons.mp ht with h | h
        · subst h
          rcases List.mem_cons.mp hc with h | h
          · subst h; exact h0f
          · exact ih false p (hgo ▸ List.mem_cons_self p ps) c h
        · exact ih false t (hgo ▸ List.mem_cons_of_mem p h) c hc

theorem splitRunsGo_exists_token (f : Char → Bool) (b : Bool) (s : Str) (c : Char)
    (hc : c ∈ s) (hf : f c = false) :
    ∃ t ∈ splitRunsGo f b s, c ∈ t := by
  induction s generalizing b with
  | nil => cases hc
  | cons c0 rest ih =>
    by_cases h0 : f c0 = true
    · have hcr : c ∈ rest := by
        rcases List.mem_cons.mp hc with h | h
        · subst h; rw [hf] at h0; cases h0
        · exact h
      obtain ⟨t, ht, hct⟩ := ih true hcr
      cases b with
      | true =>
        exact ⟨t, by simpa [splitRunsGo, h0] using ht, hct⟩
      | false =>
        refine ⟨t, ?_, hct⟩
        simp only [splitRunsGo, h0, if_true]
        exact List.mem_cons_of_mem _ ht
    · have h0f : f c0 = false := by simpa using h0
      rcases List.mem_cons.mp hc with h | h
      · subst h
        cases hgo : splitRunsGo f false rest with
        | nil => exact absurd hgo (splitRunsGo_ne_nil f false rest)
        | cons p ps =>
          refine ⟨c :: p, ?_, List.mem_cons_self _ _⟩
          simp [splitRunsGo, h0f, hgo]
      · obtain ⟨t, ht, hct⟩ := ih false h
        cases hgo : splitRunsGo f false rest with
        | nil => exact absurd hgo (splitRunsGo_ne_nil f false rest)
        | cons p ps =>
          rw [hgo] at ht
          rcases List.mem_cons.mp ht with h1 | h1
          · subst h1
            refine ⟨c0 :: t, ?_, List.mem_cons_of_mem _ hct⟩
            simp [splitRunsGo, h0f, hgo]
          · refine ⟨t, ?_, hct⟩
            simp only [splitRunsGo, h0f, hgo]
            simp only [Bool.false_eq_true, if_false]
            exact List.mem_cons_of_mem _ h1

theorem mem_dropWhile_of_not {p : Char → Bool} {c : Char} (hc : p c = false) :
    ∀ {l : Str}, c ∈ l → c ∈ l.dropWhile p := by
  intro l
  induction l with
  | nil => intro h; cases h
  | cons x xs ih =>
    intro h
    by_cases hx : p x = true
    · rcases List.mem_cons.mp h with h1 | h1
      · subst h1; rw [hc] at hx; cases hx
      · rw [List.dropWhile_cons_of_pos hx]
        exact ih h1
    · have hx2 : p x = false := by simpa using hx
      rw [List.dropWhile_cons_of_neg (by simp [hx2])]
      exact h

theorem mem_jsTrim {c : Char} (hw : c.isWhitespace = false) {s : Str} (hc : c ∈ s) :
    c ∈ jsTrim s := by
  unfold jsTrim
  rw [List.mem_reverse]
  exact mem_dropWhile_of_not hw (List.mem_reverse.mpr (mem_dropWhile_of_not hw hc))

theorem mem_of_mem_jsTrim {c : Char} {s : Str} (hc : c ∈ jsTrim s) : c ∈ s := by
  unfold jsTrim at hc
  rw [List.mem_reverse] at hc
  have h1 := (List.dropWhile_sublist (l := (s.dropWhile Char.isWhitespace).reverse)
      (p := Char.isWhitespace)).subset hc
  rw [List.mem_reverse] at h1
  exact (List.dropWhile_sublist (l := s) (p := Char.isWhitespace)).subset h1

theorem mem_jsDedupGo (seen : List Char) (l : List Char) (c : Char) :
    c ∈ jsDedupGo seen l ↔ (c ∈ l ∧ c ∉ seen) := by
  induction l generalizing seen with
  | nil => simp [jsDedupGo]
  | cons x rest ih =>
    simp only [jsDedupGo]
    by_cases hx : x ∈ seen
    · rw [if_pos hx, ih]
      constructor
      · rintro ⟨h1, h2⟩; exact ⟨List.mem_cons_of_mem _ h1, h2⟩
      · rintro ⟨h1, h2⟩
        rcases List.mem_cons.mp h1 with h3 | h3
        · exact absurd (h3 ▸ hx) h2
        · exact ⟨h3, h2⟩
    · rw [if_neg hx]
      constructor
      · intro h
        rcases List.mem_cons.mp h with rfl | h1
        · exact ⟨List.mem_cons_self _ _, hx⟩
        · obtain ⟨h2, h3⟩ := (ih _).mp h1
          exact ⟨List.mem_cons_of_mem _ h2, fun hs => h3 (List.mem_cons_of_mem _ hs)⟩
      · rintro ⟨h1, h2⟩
        rcases List.mem_cons.mp h1 with rfl | h1
        · exact List.mem_cons_self _ _
        · by_cases hcx : c = x
          · exact hcx ▸ List.mem_cons_self _ _
          · exact List.mem_cons_of_mem _
              ((ih _).mpr ⟨h1, fun hs => (List.mem_cons.mp hs).elim hcx h2⟩)

theorem jsDedupGo_nodup (seen : List Char) (l : List Char) :
    (jsDedupGo seen l).Nodup := by
  induction l generalizing seen with
  | nil => simp [jsDedupGo]
  | cons x rest ih =>
    simp only [jsDedupGo]
    by_cases hx : x ∈ seen
    · rw [if_pos hx]; exact ih seen
    · rw [if_neg hx]
      refine List.nodup_cons.mpr ⟨?_, ih _⟩
      intro hmem
      exact ((mem_jsDedupGo _ _ _).mp hmem).2 (List.mem_cons_self _ _)

theorem syncGo_statuses (allow : Bool) (L : List (RepoConfig × RepoEnv)) :
    ∀ acc, (syncGo allow acc L).2 = L.map (fun p => (syncOne p.1 p.2 allow).1) := by
  induction L with
  | nil => intro acc; rfl
  | cons p rest ih =>
    intro acc
    simp only [syncGo, List.map_cons]
    rw [ih]

theorem syncGo_fst_skip (allow : Bool) (r : RepoConfig) (e : RepoEnv)
    (h : (syncOne r e allow).2.1 = []) :
    ∀ (acc : SnipMap) (L1 L2 : List (RepoConfig × RepoEnv)),
      (syncGo allow acc (L1 ++ (r, e) :: L2)).1 = (syncGo allow acc (L1 ++ L2)).1 := by
  intro acc L1
  induction L1 generalizing acc with
  | nil =>
    intro L2
    simp only [List.nil_append, syncGo]
    rw [h]
    rfl
  | cons q rest ih =>
    intro L2
    simp only [List.cons_append, syncGo]
    exact ih _ L2

theorem syncOne_count (r : RepoConfig) (e : RepoEnv) (a : Bool) :
    countTotalSnippets (syncOne r e a).2.1 = (syncOne r e a).1.snippetCount := by
  unfold syncOne
  split
  · simp [countTotalSnippets]
  · split
    · simp [countTotalSnippets]
    · rfl

theorem syncGo_total (a : Bool) (L : List (RepoConfig × RepoEnv)) :
    ∀ acc, countTotalSnippets (syncGo a acc L).1
      = countTotalSnippets acc + (((syncGo a acc L).2).map (fun st => st.snippetCount)).sum := by
  induction L with
  | nil => intro acc; simp [syncGo]
  | cons p rest ih =>
    intro acc
    simp only [syncGo, List.map_cons, List.sum_cons]
    rw [ih, countTotal_mergeMaps, syncOne_count]
    omega

theorem enumFrom_filterMap_spec : ∀ (i : Nat) (rs : List RawRepoEntry),
    (List.enumFrom i rs).filterMap entryFun = resolveSourcesSpecGo i rs := by
  intro i rs
  induction rs generalizing i with
  | nil => rfl
  | cons r rest ih =>
    by_cases hp : ((r.localRepoPath.getD "").trim = "")
    · simp only [List.enumFrom, List.filterMap_cons, entryFun, resolveSourcesSpecGo, hp,
        if_true, if_pos, ih]
    · simp only [List.enumFrom, List.filterMap_cons, entryFun, resolveSourcesSpecGo, hp,
        if_false, if_neg, not_false_iff, ih]

/-- Sample raw entry whose scope is a lone comma: truthy and non-blank. -/
def commaScopeRaw : RawSnippet :=
  { pfx := StrOrArr.str ['p'], body := StrOrArr.str [], description := none
  , scope := some [','] }

/-- Sample raw entry without a scope. -/
def noScopeRaw : RawSnippet :=
  { pfx := StrOrArr.str ['p'], body := StrOrArr.arr [], description := none
  , scope := none }

/-- Sample raw entry scoped to a lower-case language. -/
def jsScopeRaw : RawSnippet :=
  { pfx := StrOrArr.str ['p'], body := StrOrArr.arr [], description := none
  , scope := some ['j', 's'] }

/-- Sample raw entry with a mixed-case scope. -/
def upperScopeRaw : RawSnippet :=
  { pfx := StrOrArr.str ['p'], body := StrOrArr.arr [], description := none
  , scope := some ['J', 'a', 'v', 'a'] }

/-- C1, counterexample: a scope consisting of a lone comma is present and
non-blank (its trim is nonempty), yet normalization yields an empty
targetLanguages sequence, not a non-empty token list. -/
theorem c1_languages_counterexample :
    commaScopeRaw.scope = some [','] ∧ jsTrim [','] ≠ [] ∧
    (normalizeSnippet "x" commaScopeRaw).languages = [] := by decide

/-- C1, amended: an absent or blank scope yields exactly the global
sentinel list; a present, non-blank scope containing at least one
character that is neither a comma nor whitespace yields a non-empty
token list.  (A scope made only of commas and whitespace yields the empty
list, refuting the unconditional claim.) -/
theorem c1_languages_amended (name : String) (raw : RawSnippet) :
    ((raw.scope = none ∨ ∃ sc, raw.scope = some sc ∧ jsTrim sc = []) →
      (normalizeSnippet name raw).languages = [star]) ∧
    (∀ sc, raw.scope = some sc → (∃ c ∈ sc, isScopeSep c = false) →
      (normalizeSnippet name raw).languages ≠ []) := by
  constructor
  · rintro (h | ⟨sc, hsc, ht⟩)
    · simp [normalizeSnippet, h]
    · simp [normalizeSnippet, hsc, ht]
  · rintro sc hsc ⟨c, hcmem, hcsep⟩
    have hw : c.isWhitespace = false := by
      rcases Bool.or_eq_false_iff.mp ((by simpa [isScopeSep] using hcsep :
        (decide (c = ',') || c.isWhitespace) = false)) with ⟨h1, h2⟩
      exact h2
    have ht : jsTrim sc ≠ [] := by
      intro h0
      have hmem := mem_jsTrim hw hcmem
      rw [h0] at hmem
      cases hmem
    have hlang : (normalizeSnippet name raw).languages = splitScope sc := by
      simp [normalizeSnippet, hsc, ht]
    rw [hlang]
    obtain ⟨t, htmem, hct⟩ := splitRunsGo_exists_token isScopeSep false sc c hcmem hcsep
    have hct2 : c ∈ jsTrim t := mem_jsTrim hw hct
    have htne : jsTrim t ≠ [] := by
      intro h0; rw [h0] at hct2; cases hct2
    intro hempty
    have hin : jsTrim t ∈ splitScope sc := by
      unfold splitScope
      refine List.mem_filter.mpr ⟨List.mem_map_of_mem _ htmem, ?_⟩
      cases hjt : jsTrim t with
      | nil => exact absurd hjt htne
      | cons a b => rfl
    rw [hempty] at hin
    cases hin

/-- C1, witness: the amended statement applied to an entry without a
scope and to an entry with scope js. -/
theorem c1_languages_witness :
    (normalizeSnippet "a" noScopeRaw).languages = [star] ∧
    (normalizeSnippet "b" jsScopeRaw).languages ≠ [] :=
  ⟨(c1_languages_amended "a" noScopeRaw).1 (Or.inl rfl),
   (c1_languages_amended "b" jsScopeRaw).2 ['j', 's'] rfl ⟨'j', by decide, by decide⟩⟩

/-- C2, counterexample: normalization keeps the original case of scope
tokens; the claim that the normalized tokens are lower-cased fails on the
scope Java, whose token stays Java while only the bucket key is lowered. -/
theorem c2_scope_counterexample :
    (normalizeSnippet "x" upperScopeRaw).languages = [['J', 'a', 'v', 'a']] ∧
    toLowerStr ['J', 'a', 'v', 'a'] = ['j', 'a', 'v', 'a'] ∧
    (normalizeSnippet "x" upperScopeRaw).languages ≠ [toLowerStr ['J', 'a', 'v', 'a']] := by
  decide

/-- C2, amended: a present, non-blank scope is split on runs of commas and
whitespace into trimmed tokens kept in their original case (each token is
nonempty and free of separator characters), and the loader's insertion
step buckets the snippet exactly under the lower-cased forms of those
tokens: all other keys of the table are untouched, and each lower-cased
token's bucket receives the snippet. -/
theorem c2_scope_amended (name : String) (raw : RawSnippet) (sc : Str)
    (h1 : raw.scope = some sc) (h2 : jsTrim sc ≠ []) :
    (normalizeSnippet name raw).languages = splitScope sc ∧
    (∀ t ∈ (normalizeSnippet name raw).languages, t ≠ [] ∧ ∀ c ∈ t, isScopeSep c = false) ∧
    (∀ (m : SnipMap) (k : Str),
      (k ∉ (normalizeSnippet name raw).languages.map toLowerStr →
        mapGet (addSnippetToMap m (normalizeSnippet name raw)) k = mapGet m k) ∧
      (k ∈ (normalizeSnippet name raw).languages.map toLowerStr →
        ∃ w, mapGet (addSnippetToMap m (normalizeSnippet name raw)) k = some w ∧
          normalizeSnippet name raw ∈ w)) := by
  have hlang : (normalizeSnippet name raw).languages = splitScope sc := by
    simp [normalizeSnippet, h1, h2]
  refine ⟨hlang, ?_, ?_⟩
  · intro t ht
    rw [hlang] at ht
    unfold splitScope at ht
    obtain ⟨htm, htne⟩ := List.mem_filter.mp ht
    obtain ⟨t0, ht0mem, ht0⟩ := List.mem_map.mp htm
    constructor
    · intro h0
      rw [h0] at htne
      exact absurd htne (by decide)
    · intro c hct
      rw [← ht0] at hct
      exact splitRunsGo_token_not_sep isScopeSep false sc t0 ht0mem c
        (mem_of_mem_jsTrim hct)
  · intro m k
    constructor
    · intro hk
      simp only [addSnippetToMap]
      exact mapGet_pushAll_not_mem _ _ _ _ hk
    · intro hk
      simp only [addSnippetToMap]
      exact mapGet_pushAll_mem _ _ _ _ hk

/-- C2, witness: the amended statement applied to the Java-scoped entry
inserted into the empty table: the snippet lands under the lowered key. -/
theorem c2_scope_witness :
    ∃ w, mapGet (addSnippetToMap [] (normalizeSnippet "x" upperScopeRaw))
          (toLowerStr ['J', 'a', 'v', 'a']) = some w ∧
        normalizeSnippet "x" upperScopeRaw ∈ w :=
  ((c2_scope_amended "x" upperScopeRaw ['J', 'a', 'v', 'a'] rfl (by decide)).2.2 [] _).2
    (by decide)

/-- C8: a single-string body is split on CR-optional-LF boundaries,
with no artifacts beyond what the split produces (stated against the
independent split-then-strip reading); an array body is kept unchanged. -/
theorem c8_bodyLines (name : String) (raw : RawSnippet) :
    (∀ s, raw.body = StrOrArr.str s →
      (normalizeSnippet name raw).bodyLines = splitLinesSpec s) ∧
    (∀ l, raw.body = StrOrArr.arr l → (normalizeSnippet name raw).bodyLines = l) := by
  constructor
  · intro s hs
    simp only [normalizeSnippet, hs]
    exact splitCRLF_eq_spec s
  · intro l hl
    simp [normalizeSnippet, hl]

/-- Sample raw entry with a string body containing a CRLF and an LF. -/
def crlfBodyRaw : RawSnippet :=
  { pfx := StrOrArr.str ['p']
  , body := StrOrArr.str ('a' :: '\r' :: '\n' :: 'b' :: '\n' :: 'c' :: [])
  , description := none, scope := none }

/-- Sample raw entry with an array body. -/
def arrBodyRaw : RawSnippet :=
  { pfx := StrOrArr.str ['p'], body := StrOrArr.arr [['l', '1'], ['l', '2']]
  , description := none, scope := none }

/-- C8, witness: the body theorem applied to both concrete shapes. -/
theorem c8_bodyLines_witness :
    (normalizeSnippet "x" crlfBodyRaw).bodyLines
        = splitLinesSpec ('a' :: '\r' :: '\n' :: 'b' :: '\n' :: 'c' :: []) ∧
    (normalizeSnippet "y" arrBodyRaw).bodyLines = [['l', '1'], ['l', '2']] :=
  ⟨(c8_bodyLines "x" crlfBodyRaw).1 _ rfl, (c8_bodyLines "y" arrBodyRaw).2 _ rfl⟩

/-- C7: getRepoConfigs coincides with the specification-side source
resolution: blank-path entries are dropped without error; kept entries get
the indexed display-name default, branch main, snippets path snippets, and
boolean flags true when absent or non-boolean; an absent or empty list
falls back to one legacy descriptor when the flat path is present and to
the empty sequence otherwise. -/
theorem c7_resolveSources (repos : List RawRepoEntry) (flat : FlatCfg) :
    getRepoConfigs repos flat = resolveSourcesSpec repos flat := by
  cases repos with
  | nil => rfl
  | cons r rest =>
    unfold getRepoConfigs resolveSourcesSpec
    rw [if_pos (by simp), if_neg (by simp)]
    exact enumFrom_filterMap_spec 0 (r :: rest)

/-- C9: the load-and-aggregate step is a pure function of the resolved
configuration and the observed filesystem; two runs over identical inputs
publish identical aggregated tables and statuses. -/
theorem c9_deterministic (L1 L2 : List (RepoConfig × RepoEnv)) (a1 a2 : Bool)
    (hL : L1 = L2) (ha : a1 = a2) :
    syncAllRepos L1 a1 = syncAllRepos L2 a2 := by
  rw [hL, ha]

/-- C10: after a cycle, the total snippet count of the published aggregate
equals the sum of the per-source snippetCount values of that cycle. -/
theorem c10_total_eq_sum (L : List (RepoConfig × RepoEnv)) (allow : Bool) :
    countTotalSnippets (syncAllRepos L allow).1
      = (((syncAllRepos L allow).2).map (fun st => st.snippetCount)).sum := by
  unfold syncAllRepos
  have h := syncGo_total allow L []
  rw [show countTotalSnippets ([] : SnipMap) = 0 from rfl] at h
  simpa using h

/-- C5: a successfully loaded source records as its snippetCount the sum
of the lengths of its own per-language buckets, and the per-entry
insertion adds exactly one count per targeted language, so a snippet with
N target languages contributes N. -/
theorem c5_snippetCount (repo : RepoConfig) (env : RepoEnv) (allow : Bool)
    (h1 : env.pathExists = true) (h2 : env.gitDirExists = true)
    (h3 : env.snippetDirExists = true) :
    (syncOne repo env allow).1.snippetCount
      = ((collectSnippetsFromFolder env.files repo.includeJsonFiles).map
          (fun kv => kv.2.length)).sum ∧
    ∀ (m : SnipMap) (snip : TeamSnippet),
      ((addSnippetToMap m snip).map (fun kv => kv.2.length)).sum
        = (m.map (fun kv => kv.2.length)).sum + snip.languages.length := by
  constructor
  · simp only [syncOne, h1, h2, h3, Bool.and_self, Bool.not_true, Bool.false_eq_true,
      if_false]
    rw [countTotal_eq_sumBucketLens]
    rfl
  · intro m snip
    have h := sumBucketLens_pushAll snip (snip.languages.map toLowerStr) m
    simpa [sumBucketLens, addSnippetToMap] using h

/-- C3: a source whose resolved root is missing or lacks the git marker
invokes no pull, contributes no buckets, and records a status with
lastError set and snippetCount zero, while every other configured source
in the same cycle is processed exactly as it would be without it: the
status list maps each source independently and the published aggregate
equals the one of the cycle without the failing source.  The step is a
total function, so no exception escapes. -/
theorem c3_missing_git (repo : RepoConfig) (env : RepoEnv) (allow : Bool)
    (L1 L2 : List (RepoConfig × RepoEnv))
    (h : (env.pathExists && env.gitDirExists) = false) :
    (syncOne repo env allow).2.2 = false ∧
    (syncOne repo env allow).1.lastError = some ("Not a git repo: " ++ env.resolvedPath) ∧
    (syncOne repo env allow).1.snippetCount = 0 ∧
    (syncOne repo env allow).2.1 = [] ∧
    (syncAllRepos (L1 ++ (repo, env) :: L2) allow).2
      = L1.map (fun p => (syncOne p.1 p.2 allow).1)
        ++ (syncOne repo env allow).1 :: L2.map (fun p => (syncOne p.1 p.2 allow).1) ∧
    (syncAllRepos (L1 ++ (repo, env) :: L2) allow).1
      = (syncAllRepos (L1 ++ L2) allow).1 := by
  have hone : syncOne repo env allow
      = ( { id := repo.id, name := repo.name, lastSyncSet := false
          , lastError := some ("Not a git repo: " ++ env.resolvedPath)
          , snippetCount := 0 }
        , [], false) := by
    unfold syncOne
    rw [h]
    rfl
  refine ⟨by rw [hone], by rw [hone], by rw [hone], by rw [hone], ?_, ?_⟩
  · unfold syncAllRepos
    rw [syncGo_statuses]
    simp
  · unfold syncAllRepos
    exact syncGo_fst_skip allow repo env (by rw [hone]) [] L1 L2

/-- A sample source configuration used by the concrete witnesses. -/
def demoRepo : RepoConfig :=
  { id := "repo-0", name := "Demo", localRepoPath := "/r", branch := "main"
  , snippetsPath := "snippets", includeJsonFiles := true, enableGitPull := true }

/-- A sample environment whose root path is missing. -/
def demoBadEnv : RepoEnv :=
  { resolvedPath := "/bad", pathExists := false, gitDirExists := false
  , pullError := none, snippetDirExists := false, files := [] }

/-- An eligible file whose content fails to parse. -/
def demoBadFile : SFile :=
  { name := 'b' :: '.' :: 'j' :: 's' :: 'o' :: 'n' :: []
  , content := FileContent.malformed "oops" }

/-- A healthy sample environment that walks one malformed file. -/
def demoOkEnv : RepoEnv :=
  { resolvedPath := "/r", pathExists := true, gitDirExists := true
  , pullError := none, snippetDirExists := true, files := [demoBadFile] }

/-- C3, witness: the failing-source theorem at a concrete one-source cycle. -/
theorem c3_missing_git_witness :
    (syncOne demoRepo demoBadEnv true).2.2 = false ∧
    (syncOne demoRepo demoBadEnv true).1.snippetCount = 0 ∧
    (syncAllRepos [(demoRepo, demoBadEnv)] true).1 = (syncAllRepos [] true).1 :=
  ⟨(c3_missing_git demoRepo demoBadEnv true [] [] rfl).1,
   (c3_missing_git demoRepo demoBadEnv true [] [] rfl).2.2.1,
   (c3_missing_git demoRepo demoBadEnv true [] [] rfl).2.2.2.2.2⟩

/-- C4: one eligible file whose content fails to parse is skipped alone:
the folder's collected table is the one of the same folder without that
file, exactly one extra warning is surfaced and names that file, and the
source's status keeps lastError unset (and its sync timestamp set) when
the source is otherwise healthy. -/
theorem c4_parse_error_contained (F1 F2 : List SFile) (bad : SFile) (inc : Bool)
    (msg : String) (repo : RepoConfig) (env : RepoEnv) (allow : Bool)
    (helig : eligibleFile inc bad = true) (hmal : bad.content = FileContent.malformed msg) :
    collectSnippetsFromFolder (F1 ++ bad :: F2) inc
      = collectSnippetsFromFolder (F1 ++ F2) inc ∧
    collectParseWarnings (F1 ++ bad :: F2) inc
      = collectParseWarnings F1 inc ++ bad.name :: collectParseWarnings F2 inc ∧
    (env.files = F1 ++ bad :: F2 → env.pathExists = true → env.gitDirExists = true →
      env.snippetDirExists = true → env.pullError = none →
      (syncOne repo env allow).1.lastError = none ∧
      (syncOne repo env allow).1.lastSyncSet = true) := by
  refine ⟨?_, ?_, ?_⟩
  · unfold collectSnippetsFromFolder
    rw [List.filter_append, List.filter_cons_of_pos helig, List.filter_append,
      List.foldl_append, List.foldl_append, List.foldl_cons,
      show loadFileInto (List.foldl loadFileInto [] (List.filter (eligibleFile inc) F1)) bad
          = List.foldl loadFileInto [] (List.filter (eligibleFile inc) F1) from by
        simp [loadFileInto, hmal]]
  · unfold collectParseWarnings
    rw [List.filter_append, List.filter_cons_of_pos helig]
    simp [List.filterMap_append, List.filterMap_cons, hmal]
  · intro hf h1 h2 h3 h4
    unfold syncOne
    rw [h1, h2, h3, h4]
    simp

/-- C4, witness: the containment theorem at a concrete folder holding only
the malformed file, inside a healthy source. -/
theorem c4_parse_error_witness :
    collectSnippetsFromFolder [demoBadFile] true = collectSnippetsFromFolder [] true ∧
    collectParseWarnings [demoBadFile] true
      = collectParseWarnings [] true ++ demoBadFile.name :: collectParseWarnings [] true ∧
    (syncOne demoRepo demoOkEnv true).1.lastError = none :=
  ⟨(c4_parse_error_contained [] [] demoBadFile true "oops" demoRepo demoOkEnv true
      (by decide) rfl).1,
   (c4_parse_error_contained [] [] demoBadFile true "oops" demoRepo demoOkEnv true
      (by decide) rfl).2.1,
   ((c4_parse_error_contained [] [] demoBadFile true "oops" demoRepo demoOkEnv true
      (by decide) rfl).2.2 rfl rfl rfl rfl rfl).1⟩

/-- C5, witness: the per-source count theorem at a concrete healthy
source; the second conjunct instantiated on a two-language snippet. -/
theorem c5_snippetCount_witness :
    (syncOne demoRepo demoOkEnv true).1.snippetCount
      = ((collectSnippetsFromFolder demoOkEnv.files demoRepo.includeJsonFiles).map
          (fun kv => kv.2.length)).sum ∧
    ((addSnippetToMap [] (normalizeSnippet "s" jsScopeRaw)).map
        (fun kv => kv.2.length)).sum
      = (([] : SnipMap).map (fun kv => kv.2.length)).sum
        + (normalizeSnippet "s" jsScopeRaw).languages.length :=
  ⟨(c5_snippetCount demoRepo demoOkEnv true rfl rfl rfl).1,
   (c5_snippetCount demoRepo demoOkEnv true rfl rfl rfl).2 [] (normalizeSnippet "s" jsScopeRaw)⟩

/-- C9, witness: determinism at a concrete configuration. -/
theorem c9_deterministic_witness :
    syncAllRepos [(demoRepo, demoOkEnv)] true = syncAllRepos [(demoRepo, demoOkEnv)] true :=
  c9_deterministic [(demoRepo, demoOkEnv)] [(demoRepo, demoOkEnv)] true true rfl rfl

theorem mem_jsDedup (l : List Char) (c : Char) : c ∈ jsDedup l ↔ c ∈ l := by
  unfold jsDedup
  rw [mem_jsDedupGo]
  simp

theorem mem_lastCharsOf (snips : List TeamSnippet) (c : Char) :
    c ∈ lastCharsOf snips ↔ ∃ snip ∈ snips, ∃ p ∈ snip.prefixes, p.getLast? = some c := by
  unfold lastCharsOf
  rw [List.mem_filterMap]
  constructor
  · rintro ⟨p, hp, hl⟩
    rw [List.mem_flatten] at hp
    obtain ⟨l, hl1, hp1⟩ := hp
    obtain ⟨snip, hs, hseq⟩ := List.mem_map.mp hl1
    exact ⟨snip, hs, p, hseq ▸ hp1, hl⟩
  · rintro ⟨snip, hs, p, hp, hl⟩
    refine ⟨p, ?_, hl⟩
    rw [List.mem_flatten]
    exact ⟨snip.prefixes, List.mem_map_of_mem _ hs, hp⟩

/-- C6: for every non-global key of the table, a provider is registered
for that language whose candidate sequence is the global bucket followed
by that language's bucket, and whose trigger characters are exactly the
distinct last characters of the prefixes of that merged sequence (stated
as: duplicate-free, and containing a character exactly when some prefix of
the merged sequence ends in it); when the table's keys are only the global
one and its bucket is nonempty, a catch-all provider over the global
sequence is registered with the same trigger-character derivation. -/
theorem c6_completion (m : SnipMap) :
    (∀ lang v, (lang, v) ∈ m → lang ≠ star →
      mkProvider (Selector.lang lang) (((mapGet m star).getD []) ++ v)
          ∈ registerCompletionProviders m ∧
      (mkProvider (Selector.lang lang) (((mapGet m star).getD []) ++ v)).triggerChars.Nodup ∧
      (∀ c, c ∈ (mkProvider (Selector.lang lang)
            (((mapGet m star).getD []) ++ v)).triggerChars ↔
        ∃ snip ∈ ((mapGet m star).getD []) ++ v, ∃ p ∈ snip.prefixes,
          p.getLast? = some c)) ∧
    (∀ gs, mapGet m star = some gs → gs ≠ [] → (∀ kv ∈ m, kv.1 = star) →
      mkProvider Selector.anyFile gs ∈ registerCompletionProviders m ∧
      (mkProvider Selector.anyFile gs).triggerChars.Nodup ∧
      (∀ c, c ∈ (mkProvider Selector.anyFile gs).triggerChars ↔
        ∃ snip ∈ gs, ∃ p ∈ snip.prefixes, p.getLast? = some c)) := by
  constructor
  · intro lang v hmem hne
    refine ⟨?_, jsDedupGo_nodup [] _, ?_⟩
    · unfold registerCompletionProviders
      apply List.mem_append_left
      apply List.mem_filterMap.mpr
      refine ⟨(lang, v), hmem, ?_⟩
      simp [hne]
    · intro c
      show c ∈ jsDedup (lastCharsOf _) ↔ _
      rw [mem_jsDedup, mem_lastCharsOf]
  · intro gs hget hne hall
    have hm : m ≠ [] := by
      intro h0
      rw [h0] at hget
      cases hget
    refine ⟨?_, jsDedupGo_nodup [] _, ?_⟩
    · unfold registerCompletionProviders
      apply List.mem_append_right
      have hgd : (mapGet m star).getD [] = gs := by rw [hget]; rfl
      rw [hgd]
      have hcond : (decide (gs.length > 0) && !(m.map Prod.fst).isEmpty
            && (m.map Prod.fst).all (fun k => decide (k = star))) = true := by
        simp only [Bool.and_eq_true, decide_eq_true_eq, List.all_eq_true]
        refine ⟨⟨?_, ?_⟩, ?_⟩
        · exact List.length_pos.mpr hne
        · cases m with
          | nil => exact absurd rfl hm
          | cons a b => rfl
        · intro k hk
          obtain ⟨kv, hkv, hkeq⟩ := List.mem_map.mp hk
          simpa [hkeq] using hall kv hkv
      rw [if_pos hcond]
      exact List.mem_singleton.mpr rfl
    · intro c
      show c ∈ jsDedup (lastCharsOf _) ↔ _
      rw [mem_jsDedup, mem_lastCharsOf]

/-- A sample global snippet. -/
def gSnip : TeamSnippet :=
  { name := "G", prefixes := [['g', '!']], bodyLines := [], description := none
  , languages := [star] }

/-- A sample language-scoped snippet. -/
def jSnip : TeamSnippet :=
  { name := "J", prefixes := [['j', '?']], bodyLines := [], description := none
  , languages := [['j', 's']] }

/-- A sample aggregated table with a global and a js bucket. -/
def demoMap : SnipMap := [(star, [gSnip]), (['j', 's'], [jSnip])]

/-- A sample aggregated table with only the global bucket. -/
def demoGlobalMap : SnipMap := [(star, [gSnip])]

/-- C6, witness: the provider theorem at a concrete two-bucket table and a
concrete global-only table. -/
theorem c6_completion_witness :
    mkProvider (Selector.lang ['j', 's']) (((mapGet demoMap star).getD []) ++ [jSnip])
        ∈ registerCompletionProviders demoMap ∧
    mkProvider Selector.anyFile [gSnip] ∈ registerCompletionProviders demoGlobalMap :=
  ⟨((c6_completion demoMap).1 ['j', 's'] [jSnip] (by decide) (by decide)).1,
   ((c6_completion demoGlobalMap).2 [gSnip] (by decide) (by decide) (by decide)).1⟩

end HexSnippets
